import Mathlib

/-!
Verification of the `bpf_dns.py` pattern compiler: a shallow embedding of the
tokenizer, run merger, comparison/wildcard emitters and pattern sequencer,
together with theorems about the emitted instruction stream.

Labels `lb_i` are represented by their numeric index `i`.  Bytes are `Nat`
values (the ordinal of the source character); instruction operands are `Nat`.
-/

namespace BpfDns

/-- The textual BPF mnemonics printed by the compiler, as an inductive
instruction type.  `ld off`/`ldh off`/`ldb off` are the indexed loads
`ld [x + off]` etc.; `ldI n` is the immediate load `ld #n`; `ldxIHL off` is
`ldx 4*([off]&0xf)`; `ldxM0`/`stM0` are `ldx M[0]`/`st M[0]`; `label i`
declares `lb_i:`; `jneq v i` is `jneq #v, lb_i`. -/
inductive Instr where
  | ld (off : Nat)
  | ldh (off : Nat)
  | ldb (off : Nat)
  | orI (v : Nat)
  | jneq (v : Nat) (lbl : Nat)
  | txa
  | tax
  | addI (k : Nat)
  | addX
  | ldI (n : Nat)
  | ldxIHL (off : Nat)
  | ldxM0
  | stM0
  | label (i : Nat)
  | ret (v : Nat)
  deriving DecidableEq

/-- A tokenized pattern element, mirroring the tuples built in `main`'s
tokenizer loop: `(False, '*')` for a sole-star part becomes `Tok.star`;
`(True, [(False, chr(len(part)))] + [(True, c) for c in part])` becomes
`Tok.lit` of the byte list, each byte tagged with its `is_char` flag. -/
inductive Tok where
  | star
  | lit (v : List (Bool × Nat))
  deriving DecidableEq

/-- One merged step of a pattern: either a standalone wildcard label, or a
combined byte-comparison run (a list of `(is_char, byte)` pairs). -/
inductive Step where
  | star
  | run (v : List (Bool × Nat))
  deriving DecidableEq

/-- Modelled from the spec: the Run Merger (`utils.merge`, imported from a
`utils` module whose source is not part of this repository snapshot) walks a
pattern's tokens in order, accumulating consecutive literal labels' encoded
bytes into one growing run; a wildcard token closes the current run (if
non-empty) and is kept as a standalone step; after the last token any open
run is closed (spec section 4.3). -/
def mergeAux (acc : List (Bool × Nat)) : List Tok → List Step
  | [] => if acc = [] then [] else [Step.run acc]
  | Tok.star :: rest =>
      (if acc = [] then [] else [Step.run acc]) ++ Step.star :: mergeAux [] rest
  | Tok.lit v :: rest => mergeAux (acc ++ v) rest

/-- Modelled from the spec: entry point of the Run Merger (spec section 4.3),
starting from an empty open run. -/
def merge (toks : List Tok) : List Step :=
  mergeAux [] toks

/-- The mask byte computed by `match_exact` for one `(is_char, b)` pair:
`0xff` for a `?` character, `0x20` for any other character when
`ignorecase` is set, `0x00` otherwise (`'?'` is byte 63). -/
def maskByte (ignorecase : Bool) (p : Bool × Nat) : Nat :=
  if p.1 = true ∧ p.2 = 63 then 255
  else if p.1 = true ∧ ignorecase = true then 32
  else 0

/-- The chunked-comparison loop of `match_exact`: consume the byte/mask pairs
in front-aligned chunks of 4, then 2, then 1 bytes; for each chunk emit the
load at the working offset, an `or` of the chunk mask when it is non-zero,
and a `jneq` against the big-endian packed chunk value (OR'd with the mask
when the mask is non-zero).  Returns the emitted instructions together with
the final working offset. -/
def emitChunks : List (Nat × Nat) → Nat → Nat → List Instr × Nat
  | (a, ma) :: (b, mb) :: (c, mc) :: (d, md) :: rest, off, lbl =>
      let m : Nat := ((a * 256 + b) * 256 + c) * 256 + d
      let mm : Nat := ((ma * 256 + mb) * 256 + mc) * 256 + md
      let r := emitChunks rest (off + 4) lbl
      (Instr.ld off :: ((if mm ≠ 0 then [Instr.orI mm] else []) ++
        [Instr.jneq (if mm ≠ 0 then m ||| mm else m) lbl]) ++ r.1, r.2)
  | (a, ma) :: (b, mb) :: rest, off, lbl =>
      let m : Nat := a * 256 + b
      let mm : Nat := ma * 256 + mb
      let r := emitChunks rest (off + 2) lbl
      (Instr.ldh off :: ((if mm ≠ 0 then [Instr.orI mm] else []) ++
        [Instr.jneq (if mm ≠ 0 then m ||| mm else m) lbl]) ++ r.1, r.2)
  | [(a, ma)], off, lbl =>
      (Instr.ldb off :: ((if ma ≠ 0 then [Instr.orI ma] else []) ++
        [Instr.jneq (if ma ≠ 0 then a ||| ma else a) lbl]), off + 1)
  | [], off, _ => ([], off)

/-- `match_exact`: build the mask and byte strings from the rule, emit the
chunked comparisons against the failure label, and (unless this is the
pattern's last step) advance the cursor register by the run's byte length. -/
def matchExact (ignorecase : Bool) (rule : List (Bool × Nat)) (lbl : Nat)
    (last : Bool) : List Instr :=
  let mask := rule.map (maskByte ignorecase)
  let s := rule.map Prod.snd
  let r := emitChunks (s.zip mask) 0 lbl
  r.1 ++ (if last then [] else [Instr.txa, Instr.addI r.2, Instr.tax])

/-- `match_star`: read the length byte at the cursor, add it to the cursor,
add one more, and commit the sum as the new cursor. -/
def matchStar : List Instr :=
  [Instr.ldb 0, Instr.addX, Instr.addI 1, Instr.tax]

/-- One merged step: a comparison run goes through `matchExact`, a wildcard
through `matchStar` (which ignores the `last` flag). -/
def emitStep (ignorecase : Bool) (lbl : Nat) (last : Bool) : Step → List Instr
  | Step.run r => matchExact ignorecase r lbl last
  | Step.star => matchStar

/-- The per-pattern step loop of `main`: each step is emitted with the
pattern's failure label; the `last` flag is set exactly on the final step. -/
def emitSteps (ignorecase : Bool) (lbl : Nat) : List Step → List Instr
  | [] => []
  | r :: rest => emitStep ignorecase lbl rest.isEmpty r ++ emitSteps ignorecase lbl rest

/-- Pattern block `lb_i`: the label declaration, the cursor reload from the
scratch slot (a comment, hence absent, when `i = 0`), the pattern's steps
with failure label `i + 1`, and the accept verdict. -/
def patternBlock (ignorecase neg : Bool) (i : Nat) (steps : List Step) : List Instr :=
  Instr.label i :: ((if i ≠ 0 then [Instr.ldxM0] else []) ++
    (emitSteps ignorecase (i + 1) steps ++ [Instr.ret (if neg then 0 else 1)]))

/-- The sequence of pattern blocks starting at index `i`, followed by the
final reject block `lb_n` with the reject verdict. -/
def blocksFrom (ignorecase neg : Bool) : Nat → List (List Step) → List Instr
  | i, [] => [Instr.label i, Instr.ret (if neg then 1 else 0)]
  | i, steps :: rest => patternBlock ignorecase neg i steps ++ blocksFrom ignorecase neg (i + 1) rest

/-- The IP-version-dependent part of the query-offset computation: for IPv4
the runtime IHL read plus the immediate `l3_off + 8 + 12`; for IPv6 the
immediate `l3_off + 40 + 8 + 12` alone. -/
def ipOffsetPart (ipversion l3_off : Nat) : List Instr :=
  if ipversion = 4 then
    [Instr.ldxIHL l3_off, Instr.ldI (l3_off + 8 + 12), Instr.addX]
  else if ipversion = 6 then
    [Instr.ldI (l3_off + 40 + 8 + 12)]
  else []

/-- The program header: offset computation, `tax`, and (only when more than
one pattern is present) the scratch store `st M[0]`. -/
def headerInstrs (ipversion l3_off : Nat) (multi : Bool) : List Instr :=
  ipOffsetPart ipversion l3_off ++ [Instr.tax] ++ (if multi then [Instr.stM0] else [])

/-- The whole emitted program of `main` for an already-merged pattern list:
header followed by one block per pattern and the final reject block. -/
def compile (ignorecase neg : Bool) (ipversion l3_off : Nat)
    (rls : List (List Step)) : List Instr :=
  headerInstrs ipversion l3_off (decide (1 < rls.length)) ++ blocksFrom ignorecase neg 0 rls

/-! ### Tokenizer (the per-domain loop of `main`) -/

/-- Strip all characters satisfying `p` from both ends of a list, the way
Python's `str.strip` does. -/
def stripChars (p : Char → Bool) (l : List Char) : List Char :=
  ((l.dropWhile p).reverse.dropWhile p).reverse

/-- The dot character test used by `strip(".")`. -/
def isDot (c : Char) : Bool := c = '.'

/-- Python's default `strip()` whitespace set (space, tab, LF, CR, VT, FF). -/
def isSpace (c : Char) : Bool :=
  c = ' ' || c = '\t' || c = '\n' || c = '\r' || c.toNat = 11 || c.toNat = 12

/-- Python's `split('.')`: cut at every dot, keeping empty parts. -/
def splitDots : List Char → List (List Char)
  | [] => [[]]
  | c :: rest =>
      if c = '.' then [] :: splitDots rest
      else
        match splitDots rest with
        | g :: gs => (c :: g) :: gs
        | [] => [[c]]

/-- One dot-separated part of the domain becomes a token: a sole `*` is the
wildcard token, anything else is a literal: its length byte (tagged
`is_char = false`) followed by its character bytes (tagged `is_char = true`). -/
def partToTok (p : List Char) : Tok :=
  if p = ['*'] then Tok.star
  else Tok.lit ((false, p.length) :: p.map (fun c => (true, c.toNat)))

/-- The domain normalization performed by `main`: `domain.strip(".").strip()`
— leading/trailing dots stripped first, then surrounding whitespace — and the
trailing dot appended. -/
def normalizeDomain (s : List Char) : List Char :=
  stripChars isSpace (stripChars isDot s) ++ ['.']

/-- Tokenize one raw domain string: normalize, split on dots, map parts to
tokens. -/
def tokenizeDomain (s : List Char) : List Tok :=
  (splitDots (normalizeDomain s)).map partToTok

/-- Full front end for one domain: tokenize then merge into steps. -/
def domainSteps (s : List Char) : List Step :=
  merge (tokenizeDomain s)

/-! ### Observers over the emitted instruction stream -/

/-- The index declared by a label instruction, if any. -/
def labelOf : Instr → Option Nat
  | Instr.label i => some i
  | _ => none

/-- The target of a conditional jump instruction, if any. -/
def jneqTargetOf : Instr → Option Nat
  | Instr.jneq _ l => some l
  | _ => none

/-- The verdict of a return instruction, if any. -/
def retValOf : Instr → Option Nat
  | Instr.ret v => some v
  | _ => none

/-- All label indices declared in a listing, in order. -/
def labelDecls (p : List Instr) : List Nat :=
  p.filterMap labelOf

/-- All conditional-jump targets in a listing, in order. -/
def jumpTargets (p : List Instr) : List Nat :=
  p.filterMap jneqTargetOf

/-- All return verdicts in a listing, in order. -/
def retVals (p : List Instr) : List Nat :=
  p.filterMap retValOf

/-- Instructions that the step emitters (`match_exact` / `match_star`) can
produce; in particular never a label declaration, return, scratch store or
scratch reload. -/
def plainInstr : Instr → Bool
  | Instr.ld _ => true
  | Instr.ldh _ => true
  | Instr.ldb _ => true
  | Instr.orI _ => true
  | Instr.jneq _ _ => true
  | Instr.txa => true
  | Instr.tax => true
  | Instr.addI _ => true
  | Instr.addX => true
  | _ => false

/-- Every conditional jump's target label is declared somewhere after the
jump in the listing (forward-only branching). -/
def fwdOnlyB : List Instr → Bool
  | [] => true
  | Instr.jneq _ l :: rest => decide (Instr.label l ∈ rest) && fwdOnlyB rest
  | _ :: rest => fwdOnlyB rest

/-! ### Specification-side chunking (for the refinement claims) -/

/-- Big-endian packing of a byte list into one number. -/
def packBE : List Nat → Nat
  | [] => 0
  | b :: bs => bs.foldl (fun acc v => acc * 256 + v) b

/-- The load mnemonic of each chunk width: word, half, byte. -/
def loadInstr (w off : Nat) : Instr :=
  if w = 4 then Instr.ld off
  else if w = 2 then Instr.ldh off
  else Instr.ldb off

/-- The chunk widths the spec prescribes for a run of `n` bytes: `n / 4`
four-byte chunks, one two-byte chunk iff `n % 4 ≥ 2`, one single byte iff
`n` is odd. -/
def chunkWidths (n : Nat) : List Nat :=
  List.replicate (n / 4) 4 ++ (if 2 ≤ n % 4 then [2] else []) ++
    (if n % 2 = 1 then [1] else [])

/-- Specification-side emission for one chunk: the load at the working
offset, the OR of the chunk's packed mask iff it is non-zero, and the
conditional jump whose constant is the packed value OR'd with the mask. -/
def emitChunk (w : Nat) (chunk : List (Nat × Nat)) (off lbl : Nat) : List Instr :=
  let m := packBE (chunk.map Prod.fst)
  let mm := packBE (chunk.map Prod.snd)
  loadInstr w off :: ((if mm ≠ 0 then [Instr.orI mm] else []) ++
    [Instr.jneq (m ||| mm) lbl])

/-- Specification-side emission of a run, front-aligned along a given list
of chunk widths, each chunk advancing the working offset by its width. -/
def emitByWidths : List Nat → List (Nat × Nat) → Nat → Nat → List Instr
  | [], _, _, _ => []
  | w :: ws, bm, off, lbl =>
      emitChunk w (bm.take w) off lbl ++ emitByWidths ws (bm.drop w) (off + w) lbl

/-- Specification-side emission of a run with an all-zero mask: the chunked
loads each followed directly by a `jneq` against the bare big-endian packed
value, with no OR instructions. -/
def exactEmit : List Nat → Nat → Nat → List Instr
  | a :: b :: c :: d :: rest, off, lbl =>
      Instr.ld off :: Instr.jneq (packBE [a, b, c, d]) lbl :: exactEmit rest (off + 4) lbl
  | a :: b :: rest, off, lbl =>
      Instr.ldh off :: Instr.jneq (packBE [a, b]) lbl :: exactEmit rest (off + 2) lbl
  | [a], off, lbl => [Instr.ldb off, Instr.jneq a lbl]
  | [], _, _ => []

/-! ### A small semantics for the straight-line instructions -/

/-- The 32-bit modulus of the target VM's registers. -/
def W : Nat := 4294967296

/-- Machine state: accumulator, index register, scratch slot `M[0]`. -/
structure VM where
  a : Nat
  x : Nat
  m0 : Nat
  deriving DecidableEq

/-- One byte of the packet, as an 8-bit value. -/
def byteAt (pkt : Nat → Nat) (i : Nat) : Nat := pkt i % 256

/-- The big-endian 32-bit word of the packet starting at byte `i`. -/
def wordAt (pkt : Nat → Nat) (i : Nat) : Nat :=
  ((byteAt pkt i * 256 + byteAt pkt (i + 1)) * 256 + byteAt pkt (i + 2)) * 256 +
    byteAt pkt (i + 3)

/-- The big-endian 16-bit half-word of the packet starting at byte `i`. -/
def halfAt (pkt : Nat → Nat) (i : Nat) : Nat :=
  byteAt pkt i * 256 + byteAt pkt (i + 1)

/-- Semantics of the straight-line instructions (loads, arithmetic, register
moves, scratch store/reload); control-flow instructions are not covered. -/
def stepSem (pkt : Nat → Nat) (st : VM) : Instr → Option VM
  | Instr.ld off => some { st with a := wordAt pkt (st.x + off) }
  | Instr.ldh off => some { st with a := halfAt pkt (st.x + off) }
  | Instr.ldb off => some { st with a := byteAt pkt (st.x + off) }
  | Instr.orI v => some { st with a := st.a ||| v }
  | Instr.addI k => some { st with a := (st.a + k) % W }
  | Instr.addX => some { st with a := (st.a + st.x) % W }
  | Instr.txa => some { st with a := st.x }
  | Instr.tax => some { st with x := st.a }
  | Instr.ldI n => some { st with a := n % W }
  | Instr.ldxIHL off => some { st with x := 4 * (byteAt pkt off &&& 15) }
  | Instr.ldxM0 => some { st with x := st.m0 }
  | Instr.stM0 => some { st with m0 := st.a }
  | _ => none

/-- Run a straight-line instruction list; `none` if a control-flow
instruction is reached. -/
def runStraight (pkt : Nat → Nat) : List Instr → VM → Option VM
  | [], st => some st
  | i :: rest, st =>
      match stepSem pkt st i with
      | some st' => runStraight pkt rest st'
      | none => none

/-! ## Helper lemmas -/

theorem lor_mask_if (m mm : Nat) : (if mm ≠ 0 then m ||| mm else m) = m ||| mm := by
  by_cases h : mm = 0 <;> simp [h]

theorem jneq_mask_if (m mm lbl : Nat) :
    Instr.jneq (if mm ≠ 0 then m ||| mm else m) lbl = Instr.jneq (m ||| mm) lbl := by
  rw [lor_mask_if]

theorem chunkWidths_add_four (n : Nat) : chunkWidths (n + 4) = 4 :: chunkWidths n := by
  unfold chunkWidths
  have h1 : (n + 4) / 4 = n / 4 + 1 := by omega
  have h2 : (n + 4) % 4 = n % 4 := by omega
  have h3 : (n + 4) % 2 = n % 2 := by omega
  rw [h1, h2, h3, List.replicate_succ]
  simp

theorem emitChunks_eq_aux :
    ∀ (fuel : Nat) (bm : List (Nat × Nat)) (off lbl : Nat), bm.length ≤ fuel →
      emitChunks bm off lbl = (emitByWidths (chunkWidths bm.length) bm off lbl, off + bm.length) := by
  intro fuel
  induction fuel with
  | zero =>
      intro bm off lbl h
      have hbm : bm = [] := List.length_eq_zero.mp (Nat.le_zero.mp h)
      subst hbm
      simp [emitChunks, chunkWidths, emitByWidths]
  | succ n ih =>
      intro bm off lbl h
      rcases bm with _ | ⟨⟨a, ma⟩, _ | ⟨⟨b, mb⟩, _ | ⟨⟨c, mc⟩, _ | ⟨⟨d, md⟩, rest⟩⟩⟩⟩
      · simp [emitChunks, chunkWidths, emitByWidths]
      · simp only [emitChunks, jneq_mask_if]
        simp [chunkWidths, emitByWidths, emitChunk, loadInstr, packBE]
      · simp only [emitChunks, jneq_mask_if]
        simp [chunkWidths, emitByWidths, emitChunk, loadInstr, packBE]
      · simp only [emitChunks, jneq_mask_if]
        simp [chunkWidths, emitByWidths, emitChunk, loadInstr, packBE]
      · have hlen : rest.length ≤ n := by
          simp only [List.length_cons] at h; omega
        have hrec := ih rest (off + 4) lbl hlen
        have hw : chunkWidths (rest.length + 1 + 1 + 1 + 1) = 4 :: chunkWidths rest.length := by
          have h4 : rest.length + 1 + 1 + 1 + 1 = rest.length + 4 := by omega
          rw [h4]; exact chunkWidths_add_four rest.length
        simp only [emitChunks, jneq_mask_if]
        simp [emitByWidths, emitChunk, loadInstr, packBE, hrec, List.length_cons, hw]
        omega

theorem emitChunks_zeromask_aux :
    ∀ (fuel : Nat) (bs : List Nat) (off lbl : Nat), bs.length ≤ fuel →
      emitChunks (bs.zip (List.replicate bs.length 0)) off lbl =
        (exactEmit bs off lbl, off + bs.length) := by
  intro fuel
  induction fuel with
  | zero =>
      intro bs off lbl h
      have hbs : bs = [] := List.length_eq_zero.mp (Nat.le_zero.mp h)
      subst hbs
      simp [emitChunks, exactEmit]
  | succ n ih =>
      intro bs off lbl h
      rcases bs with _ | ⟨a, _ | ⟨b, _ | ⟨c, _ | ⟨d, rest⟩⟩⟩⟩
      · simp [emitChunks, exactEmit]
      · simp [emitChunks, exactEmit, packBE, List.replicate]
      · simp [emitChunks, exactEmit, packBE, List.replicate]
      · simp [emitChunks, exactEmit, packBE, List.replicate]
      · have hlen : rest.length ≤ n := by
          simp only [List.length_cons] at h; omega
        have hrec := ih rest (off + 4) lbl hlen
        simp only [List.zip] at hrec
        simp [emitChunks, exactEmit, packBE, List.replicate_succ, List.length_cons,
          hrec]
        all_goals omega

theorem maskBytes_zero (rule : List (Bool × Nat))
    (h : ∀ q ∈ rule, ¬(q.1 = true ∧ q.2 = 63)) :
    rule.map (maskByte false) = List.replicate rule.length 0 := by
  induction rule with
  | nil => simp
  | cons q rest ih =>
      have hq := h q (by simp)
      have h1 : maskByte false q = 0 := by
        unfold maskByte
        rw [if_neg hq]
        simp
      rw [List.map_cons, List.length_cons, List.replicate_succ, h1,
        ih (fun r hr => h r (List.mem_cons_of_mem _ hr))]

theorem matchExact_zeromask (rule : List (Bool × Nat)) (lbl : Nat) (last : Bool)
    (h : ∀ q ∈ rule, ¬(q.1 = true ∧ q.2 = 63)) :
    matchExact false rule lbl last =
      exactEmit (rule.map Prod.snd) 0 lbl ++
        (if last then [] else [Instr.txa, Instr.addI rule.length, Instr.tax]) := by
  have hz := emitChunks_zeromask_aux (rule.map Prod.snd).length (rule.map Prod.snd) 0 lbl
    (le_refl _)
  have hlen : rule.length = (rule.map Prod.snd).length := (List.length_map _ _).symm
  simp only [matchExact, maskBytes_zero rule h]
  rw [hlen, hz]
  simp

theorem plainInstr_loadInstr (w off : Nat) : plainInstr (loadInstr w off) = true := by
  unfold loadInstr
  split_ifs <;> rfl

theorem loadInstr_ne_jneq (w off v l : Nat) : loadInstr w off ≠ Instr.jneq v l := by
  unfold loadInstr
  split_ifs <;> simp

theorem emitChunk_mem (w : Nat) (chunk : List (Nat × Nat)) (off lbl : Nat) :
    ∀ x ∈ emitChunk w chunk off lbl,
      plainInstr x = true ∧ ∀ v l, x = Instr.jneq v l → l = lbl := by
  intro x hx
  simp only [emitChunk] at hx
  rw [List.mem_cons] at hx
  rcases hx with h | hx
  · subst h
    exact ⟨plainInstr_loadInstr w off, fun v l hl => absurd hl (loadInstr_ne_jneq w off v l)⟩
  · rw [List.mem_append] at hx
    rcases hx with h | h
    · split at h
      · rw [List.mem_singleton] at h
        subst h
        exact ⟨rfl, fun v l hl => by cases hl⟩
      · cases h
    · rw [List.mem_singleton] at h
      subst h
      refine ⟨rfl, fun v l hl => ?_⟩
      injection hl with h1 h2
      exact h2.symm

theorem emitByWidths_mem (ws : List Nat) :
    ∀ (bm : List (Nat × Nat)) (off lbl : Nat), ∀ x ∈ emitByWidths ws bm off lbl,
      plainInstr x = true ∧ ∀ v l, x = Instr.jneq v l → l = lbl := by
  induction ws with
  | nil => intro bm off lbl x hx; simp [emitByWidths] at hx
  | cons w ws ih =>
      intro bm off lbl x hx
      simp only [emitByWidths, List.mem_append] at hx
      rcases hx with h | h
      · exact emitChunk_mem w _ off lbl x h
      · exact ih _ _ lbl x h

theorem emitChunks_mem (bm : List (Nat × Nat)) (off lbl : Nat) :
    ∀ x ∈ (emitChunks bm off lbl).1,
      plainInstr x = true ∧ ∀ v l, x = Instr.jneq v l → l = lbl := by
  rw [emitChunks_eq_aux bm.length bm off lbl (le_refl _)]
  exact emitByWidths_mem _ bm off lbl

theorem matchExact_mem (ic : Bool) (rule : List (Bool × Nat)) (lbl : Nat) (last : Bool) :
    ∀ x ∈ matchExact ic rule lbl last,
      plainInstr x = true ∧ ∀ v l, x = Instr.jneq v l → l = lbl := by
  intro x hx
  simp only [matchExact, List.mem_append] at hx
  rcases hx with h | h
  · exact emitChunks_mem _ 0 lbl x h
  · split at h
    · cases h
    · simp only [List.mem_cons, List.not_mem_nil, or_false] at h
      rcases h with h | h | h <;> subst h <;>
        exact ⟨rfl, fun v l hl => by cases hl⟩

theorem matchStar_mem :
    ∀ x ∈ matchStar, ∀ (lbl : Nat),
      plainInstr x = true ∧ ∀ v l, x = Instr.jneq v l → l = lbl := by
  intro x hx lbl
  simp only [matchStar, List.mem_cons, List.not_mem_nil, or_false] at hx
  rcases hx with h | h | h | h <;> subst h <;>
    exact ⟨rfl, fun v l hl => by cases hl⟩

theorem emitSteps_mem (ic : Bool) (lbl : Nat) :
    ∀ (steps : List Step), ∀ x ∈ emitSteps ic lbl steps,
      plainInstr x = true ∧ ∀ v l, x = Instr.jneq v l → l = lbl := by
  intro steps
  induction steps with
  | nil => intro x hx; simp [emitSteps] at hx
  | cons r rest ih =>
      intro x hx
      simp only [emitSteps, List.mem_append] at hx
      rcases hx with h | h
      · cases r with
        | run rl => exact matchExact_mem ic rl lbl _ x h
        | star => exact matchStar_mem x h lbl
      · exact ih x h

theorem not_mem_of_plain {l : List Instr} (hl : ∀ x ∈ l, plainInstr x = true)
    {y : Instr} (hy : plainInstr y = false) : y ∉ l := by
  intro hmem
  rw [hl y hmem] at hy
  cases hy

theorem count_zero_of_plain {l : List Instr} (hl : ∀ x ∈ l, plainInstr x = true)
    {y : Instr} (hy : plainInstr y = false) : l.count y = 0 :=
  List.count_eq_zero.mpr (not_mem_of_plain hl hy)

theorem labelOf_plain {x : Instr} (h : plainInstr x = true) : labelOf x = none := by
  cases x <;> simp_all [plainInstr, labelOf]

theorem retValOf_plain {x : Instr} (h : plainInstr x = true) : retValOf x = none := by
  cases x <;> simp_all [plainInstr, retValOf]

theorem patternBlock_labelDecls (ic neg : Bool) (i : Nat) (steps : List Step) :
    labelDecls (patternBlock ic neg i steps) = [i] := by
  unfold patternBlock labelDecls
  have h1 : List.filterMap labelOf (emitSteps ic (i + 1) steps) = [] :=
    List.filterMap_eq_nil_iff.mpr
      (fun x hx => labelOf_plain (emitSteps_mem ic (i + 1) steps x hx).1)
  rw [List.filterMap_cons]
  simp only [labelOf]
  rw [List.filterMap_append, List.filterMap_append, h1]
  split <;> simp [labelOf]

theorem patternBlock_jneq_mem {ic neg : Bool} {i : Nat} {steps : List Step} {v l : Nat}
    (h : Instr.jneq v l ∈ patternBlock ic neg i steps) : l = i + 1 := by
  unfold patternBlock at h
  rw [List.mem_cons] at h
  rcases h with h | h
  · cases h
  · rw [List.mem_append] at h
    rcases h with h | h
    · split at h
      · rw [List.mem_singleton] at h; cases h
      · cases h
    · rw [List.mem_append] at h
      rcases h with h | h
      · exact (emitSteps_mem ic (i + 1) steps _ h).2 v l rfl
      · rw [List.mem_singleton] at h; cases h

theorem fwdOnlyB_append {A B : List Instr}
    (hA : ∀ v l, Instr.jneq v l ∈ A → Instr.label l ∈ B)
    (hB : fwdOnlyB B = true) : fwdOnlyB (A ++ B) = true := by
  induction A with
  | nil => simpa
  | cons x A ih =>
      have ih' := ih (fun v l h => hA v l (List.mem_cons_of_mem _ h))
      cases x <;>
        first
        | (simp only [List.cons_append, fwdOnlyB]; exact ih')
        | (simp only [List.cons_append, fwdOnlyB, List.append_eq]
           rw [ih']
           simp only [Bool.and_true, decide_eq_true_eq]
           exact List.mem_append_right _ (hA _ _ (List.mem_cons_self _ _)))

theorem label_mem_blocksFrom (ic neg : Bool) (i : Nat) (L : List (List Step)) :
    Instr.label i ∈ blocksFrom ic neg i L := by
  cases L with
  | nil => simp [blocksFrom]
  | cons p rest => simp [blocksFrom, patternBlock]

theorem fwdOnlyB_blocksFrom (ic neg : Bool) :
    ∀ (L : List (List Step)) (i : Nat), fwdOnlyB (blocksFrom ic neg i L) = true := by
  intro L
  induction L with
  | nil => intro i; simp [blocksFrom, fwdOnlyB]
  | cons p rest ih =>
      intro i
      unfold blocksFrom
      apply fwdOnlyB_append
      · intro v l h
        rw [patternBlock_jneq_mem h]
        exact label_mem_blocksFrom ic neg (i + 1) rest
      · exact ih (i + 1)

theorem blocksFrom_labelDecls (ic neg : Bool) :
    ∀ (L : List (List Step)) (i : Nat),
      labelDecls (blocksFrom ic neg i L) = List.range' i (L.length + 1) := by
  intro L
  induction L with
  | nil =>
      intro i
      simp [blocksFrom, labelDecls, labelOf, List.range'_succ]
  | cons p rest ih =>
      intro i
      have hp := patternBlock_labelDecls ic neg i p
      unfold labelDecls at hp ⊢
      unfold blocksFrom
      rw [List.filterMap_append, hp]
      have := ih (i + 1)
      unfold labelDecls at this
      rw [this]
      simp [List.range'_succ, List.length_cons]

theorem headerInstrs_no_jneq (ipversion l3_off : Nat) (multi : Bool) (v l : Nat) :
    Instr.jneq v l ∉ headerInstrs ipversion l3_off multi := by
  unfold headerInstrs ipOffsetPart
  split_ifs <;> simp

theorem headerInstrs_labelDecls (ipversion l3_off : Nat) (multi : Bool) :
    labelDecls (headerInstrs ipversion l3_off multi) = [] := by
  unfold headerInstrs ipOffsetPart labelDecls
  split_ifs <;> rfl

theorem headerInstrs_retVals (ipversion l3_off : Nat) (multi : Bool) :
    retVals (headerInstrs ipversion l3_off multi) = [] := by
  unfold headerInstrs ipOffsetPart retVals
  split_ifs <;> rfl

theorem patternBlock_retVals (ic neg : Bool) (i : Nat) (steps : List Step) :
    retVals (patternBlock ic neg i steps) = [if neg then 0 else 1] := by
  unfold patternBlock retVals
  have h1 : List.filterMap retValOf (emitSteps ic (i + 1) steps) = [] :=
    List.filterMap_eq_nil_iff.mpr
      (fun x hx => retValOf_plain (emitSteps_mem ic (i + 1) steps x hx).1)
  rw [List.filterMap_cons]
  simp only [retValOf]
  rw [List.filterMap_append, List.filterMap_append, h1]
  split <;> simp [retValOf]

theorem patternBlock_getLast (ic neg : Bool) (i : Nat) (steps : List Step) :
    (patternBlock ic neg i steps).getLast? = some (Instr.ret (if neg then 0 else 1)) := by
  unfold patternBlock
  rw [show Instr.label i :: ((if i ≠ 0 then [Instr.ldxM0] else []) ++
        (emitSteps ic (i + 1) steps ++ [Instr.ret (if neg then 0 else 1)])) =
      (Instr.label i :: ((if i ≠ 0 then [Instr.ldxM0] else []) ++
        emitSteps ic (i + 1) steps)) ++ [Instr.ret (if neg then 0 else 1)] by
    simp]
  exact List.getLast?_concat _

theorem blocksFrom_retVals (ic neg : Bool) :
    ∀ (L : List (List Step)) (i : Nat),
      retVals (blocksFrom ic neg i L) =
        List.replicate L.length (if neg then 0 else 1) ++ [if neg then 1 else 0] := by
  intro L
  induction L with
  | nil => intro i; simp [blocksFrom, retVals, retValOf]
  | cons p rest ih =>
      intro i
      have hp := patternBlock_retVals ic neg i p
      unfold retVals at hp ⊢
      unfold blocksFrom
      rw [List.filterMap_append, hp]
      have := ih (i + 1)
      unfold retVals at this
      rw [this]
      simp [List.replicate_succ]

theorem ldxM0_not_mem_patternBlock_zero (ic neg : Bool) (steps : List Step) :
    Instr.ldxM0 ∉ patternBlock ic neg 0 steps := by
  unfold patternBlock
  simp only [ne_eq, not_true_eq_false, reduceIte, List.nil_append]
  intro h
  rw [List.mem_cons] at h
  rcases h with h | h
  · cases h
  · rw [List.mem_append] at h
    rcases h with h | h
    · exact not_mem_of_plain (fun x hx => (emitSteps_mem ic 1 steps x hx).1)
        (rfl : plainInstr Instr.ldxM0 = false) h
    · rw [List.mem_singleton] at h; cases h

theorem patternBlock_take_two (ic neg : Bool) (i : Nat) (steps : List Step) (h : i ≠ 0) :
    (patternBlock ic neg i steps).take 2 = [Instr.label i, Instr.ldxM0] := by
  unfold patternBlock
  rw [if_pos h]
  rfl

theorem stM0_not_mem_patternBlock (ic neg : Bool) (i : Nat) (steps : List Step) :
    Instr.stM0 ∉ patternBlock ic neg i steps := by
  unfold patternBlock
  intro h
  rw [List.mem_cons] at h
  rcases h with h | h
  · cases h
  · rw [List.mem_append] at h
    rcases h with h | h
    · split at h
      · rw [List.mem_singleton] at h; cases h
      · cases h
    · rw [List.mem_append] at h
      rcases h with h | h
      · exact not_mem_of_plain (fun x hx => (emitSteps_mem ic (i + 1) steps x hx).1)
          (rfl : plainInstr Instr.stM0 = false) h
      · rw [List.mem_singleton] at h; cases h

theorem stM0_not_mem_blocksFrom (ic neg : Bool) :
    ∀ (L : List (List Step)) (i : Nat), Instr.stM0 ∉ blocksFrom ic neg i L := by
  intro L
  induction L with
  | nil => intro i; simp [blocksFrom]
  | cons p rest ih =>
      intro i
      unfold blocksFrom
      rw [List.mem_append]
      rintro (h | h)
      · exact stM0_not_mem_patternBlock ic neg i p h
      · exact ih (i + 1) h

theorem patternBlock_count_ldxM0 (ic neg : Bool) (i : Nat) (steps : List Step) :
    (patternBlock ic neg i steps).count Instr.ldxM0 = if i = 0 then 0 else 1 := by
  unfold patternBlock
  have hsteps : (emitSteps ic (i + 1) steps).count Instr.ldxM0 = 0 :=
    count_zero_of_plain (fun x hx => (emitSteps_mem ic (i + 1) steps x hx).1) rfl
  rw [List.count_cons, List.count_append, List.count_append, hsteps]
  by_cases h : i = 0 <;> simp [h]

theorem blocksFrom_count_ldxM0 (ic neg : Bool) :
    ∀ (L : List (List Step)) (i : Nat), i ≠ 0 →
      (blocksFrom ic neg i L).count Instr.ldxM0 = L.length := by
  intro L
  induction L with
  | nil => intro i hi; simp [blocksFrom]
  | cons p rest ih =>
      intro i hi
      unfold blocksFrom
      rw [List.count_append, patternBlock_count_ldxM0, if_neg hi, ih (i + 1) (by omega)]
      simp only [List.length_cons]
      omega

theorem ldxM0_not_mem_headerInstrs (ipversion l3_off : Nat) (multi : Bool) :
    Instr.ldxM0 ∉ headerInstrs ipversion l3_off multi := by
  unfold headerInstrs ipOffsetPart
  split_ifs <;> simp

theorem headerInstrs_count_ldxM0 (ipversion l3_off : Nat) (multi : Bool) :
    (headerInstrs ipversion l3_off multi).count Instr.ldxM0 = 0 :=
  List.count_eq_zero.mpr (ldxM0_not_mem_headerInstrs ipversion l3_off multi)

theorem headerInstrs_count_stM0 (ipversion l3_off : Nat) :
    (headerInstrs ipversion l3_off true).count Instr.stM0 = 1 := by
  unfold headerInstrs ipOffsetPart
  split_ifs <;> simp_all [List.count_append, List.count_cons]

theorem stM0_not_mem_headerInstrs_single (ipversion l3_off : Nat) :
    Instr.stM0 ∉ headerInstrs ipversion l3_off false := by
  unfold headerInstrs ipOffsetPart
  split_ifs <;> simp_all

/-! ## Claim theorems -/

/-- C1: for every compare run handed to `match_exact`, the bytes are consumed
in front-aligned chunks of width 4, then 2, then 1 (`n / 4` four-byte chunks,
one two-byte chunk iff `n % 4 ≥ 2`, one single byte iff `n` is odd), and each
chunk yields a load of its width at the current working offset, an OR of the
chunk's mask exactly when the mask is non-zero, and a `jneq` whose constant
is the chunk's big-endian packed value OR'd with the chunk's mask (the bare
packed value when the mask is zero); the working offset advances by the
chunk's width, ending at the run's total length. -/
theorem chunk_emission_spec (bm : List (Nat × Nat)) (off lbl : Nat) :
    emitChunks bm off lbl =
      (emitByWidths (chunkWidths bm.length) bm off lbl, off + bm.length) :=
  emitChunks_eq_aux bm.length bm off lbl (le_refl _)

/-- C2: the per-byte mask is all-ones for a `?` character regardless of the
case-insensitivity flag, `0x20` for any other character byte iff
case-insensitivity is on, and zero otherwise (length bytes in particular);
with case-sensitivity and no `?` in the run, the whole mask is all-zero and
the emitted comparisons test the bare wire bytes (chunked loads each followed
directly by a `jneq` against the big-endian packed bytes, with no OR). -/
theorem mask_policy_spec :
    (∀ (ic : Bool) (p : Bool × Nat),
        (p.1 = true → p.2 = 63 → maskByte ic p = 255) ∧
        (p.1 = true → p.2 ≠ 63 → maskByte ic p = if ic then 32 else 0) ∧
        (p.1 = false → maskByte ic p = 0)) ∧
    (∀ (rule : List (Bool × Nat)) (lbl : Nat) (last : Bool),
        (∀ q ∈ rule, ¬(q.1 = true ∧ q.2 = 63)) →
        rule.map (maskByte false) = List.replicate rule.length 0 ∧
        matchExact false rule lbl last =
          exactEmit (rule.map Prod.snd) 0 lbl ++
            (if last then [] else [Instr.txa, Instr.addI rule.length, Instr.tax])) := by
  constructor
  · intro ic p
    refine ⟨?_, ?_, ?_⟩
    · intro h1 h2
      unfold maskByte
      rw [if_pos ⟨h1, h2⟩]
    · intro h1 h2
      cases ic <;> simp [maskByte, h1, h2]
    · intro h1
      simp [maskByte, h1]
  · intro rule lbl last h
    exact ⟨maskBytes_zero rule h, matchExact_zeromask rule lbl last h⟩

/-- C3: every conditional branch emitted inside pattern block `Pi` targets
label `i + 1` (the next pattern's block, or the final reject block when `Pi`
is the last pattern); the labels declared in the compiled listing are exactly
`lb_0 .. lb_n`, each exactly once and in order; and every branch occurs
strictly before the declaration of its target label (all jumps are
forward-only in the emitted layout). -/
theorem jump_label_discipline (ic neg : Bool) (ipversion l3_off : Nat)
    (rls : List (List Step)) :
    labelDecls (compile ic neg ipversion l3_off rls) = List.range (rls.length + 1) ∧
    fwdOnlyB (compile ic neg ipversion l3_off rls) = true ∧
    ∀ (i : Nat) (steps : List Step) (v l : Nat),
      Instr.jneq v l ∈ patternBlock ic neg i steps → l = i + 1 := by
  refine ⟨?_, ?_, ?_⟩
  · unfold compile labelDecls
    rw [List.filterMap_append]
    have h1 := headerInstrs_labelDecls ipversion l3_off (decide (1 < rls.length))
    unfold labelDecls at h1
    rw [h1]
    have h2 := blocksFrom_labelDecls ic neg rls 0
    unfold labelDecls at h2
    rw [h2, List.range_eq_range']
    simp
  · unfold compile
    apply fwdOnlyB_append
    · intro v l h
      exact absurd h (headerInstrs_no_jneq _ _ _ v l)
    · exact fwdOnlyB_blocksFrom ic neg rls 0
  · intro i steps v l h
    exact patternBlock_jneq_mem h

/-- Witness for C3: a concrete one-pattern program and a concrete branch in a
concrete block. -/
theorem jump_label_discipline_w :
    labelDecls (compile false false 4 14 [[Step.run [(false, 0)]]]) = List.range 2 ∧
    (5 : Nat) = 4 + 1 :=
  ⟨(jump_label_discipline false false 4 14 [[Step.run [(false, 0)]]]).1,
   (jump_label_discipline false false 4 14 [[Step.run [(false, 0)]]]).2.2 4
     [Step.run [(false, 0)]] 0 5 (by decide)⟩

/-- C4 counterexample: with two patterns (`n = 2 > 1`) the first block still
omits the scratch reload — the whole two-pattern program contains exactly one
`ldx M[0]` (the claim requires one per block, i.e. two), and block `P0`
contains none. -/
theorem reload_skip_cex :
    (compile false false 4 14 [[Step.run [(false, 1), (true, 97)]],
        [Step.run [(false, 1), (true, 97)]]]).count Instr.ldxM0 = 1 ∧
    (patternBlock false false 0 [Step.run [(false, 1), (true, 97)]]).count
        Instr.ldxM0 = 0 := by
  decide

/-- C4 (amended): entering pattern block `Pi` for `i ≥ 1` first reloads the
cursor register from the recorded scratch offset (the reload is the
instruction immediately after the block label); the reload is always omitted
for the first block `P0`, regardless of the pattern count. -/
theorem reload_after_first (ic neg : Bool) (i : Nat) (steps : List Step) :
    (i ≠ 0 → (patternBlock ic neg i steps).take 2 = [Instr.label i, Instr.ldxM0]) ∧
    (i = 0 → Instr.ldxM0 ∉ patternBlock ic neg i steps) := by
  constructor
  · intro h
    exact patternBlock_take_two ic neg i steps h
  · intro h
    subst h
    exact ldxM0_not_mem_patternBlock_zero ic neg steps

/-- Witness for C4's amended theorem at blocks 1 and 0. -/
theorem reload_after_first_w :
    (patternBlock false false 1 [Step.star]).take 2 = [Instr.label 1, Instr.ldxM0] ∧
    Instr.ldxM0 ∉ patternBlock false false 0 [Step.star] :=
  ⟨(reload_after_first false false 1 [Step.star]).1 (by decide),
   (reload_after_first false false 0 [Step.star]).2 rfl⟩

/-- C5: a single-pattern compilation emits neither the scratch store nor any
scratch reload; a multi-pattern compilation emits exactly one store,
immediately after the query-offset computation, and a reload right at the
entry (after the label) of every pattern block except the first — `n - 1`
reloads in total. -/
theorem scratch_store_reload (ic neg : Bool) (ipversion l3_off : Nat)
    (rls : List (List Step)) :
    (rls.length = 1 →
        Instr.stM0 ∉ compile ic neg ipversion l3_off rls ∧
        Instr.ldxM0 ∉ compile ic neg ipversion l3_off rls) ∧
    (1 < rls.length →
        (compile ic neg ipversion l3_off rls).count Instr.stM0 = 1 ∧
        compile ic neg ipversion l3_off rls =
          ipOffsetPart ipversion l3_off ++ [Instr.tax, Instr.stM0] ++
            blocksFrom ic neg 0 rls ∧
        (compile ic neg ipversion l3_off rls).count Instr.ldxM0 = rls.length - 1 ∧
        ∀ (i : Nat) (steps : List Step), 1 ≤ i →
          (patternBlock ic neg i steps).take 2 = [Instr.label i, Instr.ldxM0]) := by
  constructor
  · intro h1
    obtain ⟨p, hp⟩ := List.length_eq_one.mp h1
    subst hp
    have hd : (decide (1 < [p].length)) = false := by simp
    unfold compile
    rw [hd]
    constructor
    · intro hmem
      rw [List.mem_append] at hmem
      rcases hmem with h | h
      · exact stM0_not_mem_headerInstrs_single ipversion l3_off h
      · exact stM0_not_mem_blocksFrom ic neg [p] 0 h
    · intro hmem
      rw [List.mem_append] at hmem
      rcases hmem with h | h
      · exact ldxM0_not_mem_headerInstrs ipversion l3_off false h
      · simp only [blocksFrom, List.mem_append] at h
        rcases h with h | h
        · exact ldxM0_not_mem_patternBlock_zero ic neg p h
        · simp at h
  · intro h2
    obtain ⟨p, rest, hpr⟩ : ∃ p rest, rls = p :: rest := by
      rcases rls with _ | ⟨p, rest⟩
      · simp at h2
      · exact ⟨p, rest, rfl⟩
    subst hpr
    have hd : (decide (1 < (p :: rest).length)) = true := by simpa using h2
    refine ⟨?_, ?_, ?_, ?_⟩
    · unfold compile
      rw [hd, List.count_append, headerInstrs_count_stM0,
        List.count_eq_zero.mpr (stM0_not_mem_blocksFrom ic neg (p :: rest) 0)]
    · unfold compile headerInstrs
      rw [hd]
      simp
    · unfold compile
      rw [hd, List.count_append, headerInstrs_count_ldxM0]
      simp only [blocksFrom, List.count_append, patternBlock_count_ldxM0, if_pos rfl]
      rw [blocksFrom_count_ldxM0 ic neg rest 1 (by omega)]
      simp only [List.length_cons]
      simp
    · intro i steps hi
      exact patternBlock_take_two ic neg i steps (by omega)

/-- Witness for C5 at a concrete single-pattern and a concrete two-pattern
compilation. -/
theorem scratch_store_reload_w :
    Instr.stM0 ∉ compile false false 4 14 [[Step.star]] ∧
    (compile false false 4 14 [[Step.star], [Step.star]]).count Instr.stM0 = 1 :=
  ⟨((scratch_store_reload false false 4 14 [[Step.star]]).1 rfl).1,
   ((scratch_store_reload false false 4 14 [[Step.star], [Step.star]]).2
     (by decide)).1⟩

/-- C9: every pattern block ends with the accept verdict — `ret 1` normally,
`ret 0` under negation — and the return verdicts of the whole program are one
accept per pattern followed by the single final reject verdict, the opposite
value; the two values swap as a pair under the negate flag. -/
theorem verdict_polarity (ic neg : Bool) (ipversion l3_off : Nat)
    (rls : List (List Step)) :
    retVals (compile ic neg ipversion l3_off rls) =
      List.replicate rls.length (if neg then 0 else 1) ++ [if neg then 1 else 0] ∧
    ∀ (i : Nat) (steps : List Step),
      (patternBlock ic neg i steps).getLast? =
        some (Instr.ret (if neg then 0 else 1)) := by
  constructor
  · unfold compile retVals
    rw [List.filterMap_append]
    have h1 := headerInstrs_retVals ipversion l3_off (decide (1 < rls.length))
    unfold retVals at h1
    rw [h1]
    have h2 := blocksFrom_retVals ic neg rls 0
    unfold retVals at h2
    rw [h2]
    simp
  · intro i steps
    exact patternBlock_getLast ic neg i steps

/-- C7: the wildcard step block is exactly `ldb [x+0]; add x; add #1; tax` —
four instructions, with no comparison and no branch to any failure label —
and running it reads the length byte at the current cursor, adds the cursor
and one more, and commits the sum as the new cursor: a net cursor advance of
`length + 1`. -/
theorem wildcard_skip_block :
    matchStar = [Instr.ldb 0, Instr.addX, Instr.addI 1, Instr.tax] ∧
    ∀ (pkt : Nat → Nat) (st : VM),
      runStraight pkt matchStar st =
        some ⟨(byteAt pkt st.x + st.x + 1) % W, (byteAt pkt st.x + st.x + 1) % W,
          st.m0⟩ := by
  refine ⟨rfl, ?_⟩
  intro pkt st
  simp [matchStar, runStraight, stepSem, Nat.mod_add_mod]

/-- C8: with link-layer header length `L`, the initial cursor value committed
by the header is, for IPv4, the runtime value `4 * (low nibble of the byte at
offset L)` plus the constant `L + 8 + 12`; for IPv6 it is the constant
`L + 40 + 8 + 12`, and the IPv6 header performs no packet reads at all (no
extension-header walking). -/
theorem initial_cursor_offset (l3_off : Nat) (multi : Bool) (pkt : Nat → Nat) (st : VM) :
    (runStraight pkt (headerInstrs 4 l3_off multi) st).map VM.x =
        some ((4 * (byteAt pkt l3_off &&& 15) + (l3_off + 8 + 12)) % W) ∧
    (runStraight pkt (headerInstrs 6 l3_off multi) st).map VM.x =
        some ((l3_off + 40 + 8 + 12) % W) ∧
    headerInstrs 6 l3_off multi =
      [Instr.ldI (l3_off + 40 + 8 + 12), Instr.tax] ++
        (if multi then [Instr.stM0] else []) := by
  refine ⟨?_, ?_, ?_⟩
  · cases multi <;>
      simp [headerInstrs, ipOffsetPart, runStraight, stepSem, Nat.mod_add_mod,
        Nat.add_comm]
  · cases multi <;> simp [headerInstrs, ipOffsetPart, runStraight, stepSem]
  · cases multi <;> simp [headerInstrs, ipOffsetPart]

theorem isSpace_space : isSpace ' ' = true := by decide

theorem dropWhile_isSpace_cons_space (t : List Char) :
    List.dropWhile isSpace (' ' :: t) = List.dropWhile isSpace t := by
  rw [List.dropWhile_cons, if_pos isSpace_space]

theorem stripChars_cons_space (t : List Char) :
    stripChars isSpace (' ' :: t) = stripChars isSpace t := by
  unfold stripChars
  rw [dropWhile_isSpace_cons_space]

theorem stripChars_append_space (t : List Char) :
    stripChars isSpace (t ++ [' ']) = stripChars isSpace t := by
  unfold stripChars
  rw [List.dropWhile_append]
  by_cases hd : (List.dropWhile isSpace t).isEmpty
  · rw [if_pos hd]
    rw [List.isEmpty_iff] at hd
    rw [hd]
    simp [List.dropWhile_cons, isSpace_space]
  · rw [if_neg hd, List.reverse_append]
    simp only [List.reverse_cons, List.reverse_nil, List.nil_append,
      List.singleton_append]
    rw [dropWhile_isSpace_cons_space]

theorem stripChars_id_of_ends (p : Char → Bool) (l : List Char)
    (h1 : List.dropWhile p l = l) (h2 : List.dropWhile p l.reverse = l.reverse) :
    stripChars p l = l := by
  unfold stripChars
  rw [h1, h2, List.reverse_reverse]

theorem stripDots_space_wrap (s : List Char) :
    stripChars isDot (' ' :: (s ++ [' '])) = ' ' :: (s ++ [' ']) := by
  apply stripChars_id_of_ends
  · rw [List.dropWhile_cons, if_neg]
    intro hc
    cases hc
  · rw [List.reverse_cons, List.reverse_append]
    simp only [List.reverse_cons, List.reverse_nil, List.nil_append,
      List.singleton_append, List.cons_append]
    rw [List.dropWhile_cons, if_neg]
    intro hc
    cases hc

theorem splitDots_append_dot (l : List Char) :
    (splitDots (l ++ ['.'])).getLast? = some [] ∧
      2 ≤ (splitDots (l ++ ['.'])).length := by
  induction l with
  | nil => constructor <;> simp [splitDots]
  | cons c t ih =>
      obtain ⟨ih1, ih2⟩ := ih
      rcases hrest : splitDots (t ++ ['.']) with _ | ⟨g, gs⟩
      · rw [hrest] at ih2; simp at ih2
      · rcases gs with _ | ⟨g2, gs'⟩
        · rw [hrest] at ih2; simp at ih2
        · rw [hrest] at ih1 ih2
          by_cases hc : c = '.'
          · subst hc
            constructor
            · rw [show splitDots (('.' :: t) ++ ['.']) =
                  [] :: splitDots (t ++ ['.']) from by simp [splitDots]]
              rw [hrest, List.getLast?_cons_cons]
              exact ih1
            · rw [show splitDots (('.' :: t) ++ ['.']) =
                  [] :: splitDots (t ++ ['.']) from by simp [splitDots]]
              rw [hrest]
              simp only [List.length_cons] at ih2 ⊢
              omega
          · constructor
            · rw [show splitDots ((c :: t) ++ ['.']) = (c :: g) :: g2 :: gs' from by
                simp [splitDots, hrest, hc]]
              rw [List.getLast?_cons_cons]
              rw [List.getLast?_cons_cons] at ih1
              exact ih1
            · rw [show splitDots ((c :: t) ++ ['.']) = (c :: g) :: g2 :: gs' from by
                simp [splitDots, hrest, hc]]
              simp only [List.length_cons] at ih2 ⊢
              omega

theorem mergeAux_getLast :
    ∀ (toks : List Tok) (acc v : List (Bool × Nat)),
      toks.getLast? = some (Tok.lit v) → v ≠ [] →
      ∃ ws, (mergeAux acc toks).getLast? = some (Step.run ws) ∧
        ws.getLast? = v.getLast? := by
  intro toks
  induction toks with
  | nil => intro acc v h hv; simp at h
  | cons t rest ih =>
      intro acc v h hv
      rcases rest with _ | ⟨t2, rest'⟩
      · simp at h
        subst h
        have hne : acc ++ v ≠ [] := by simp [hv]
        refine ⟨acc ++ v, ?_, ?_⟩
        · simp [mergeAux, hne]
        · rcases hv' : v.getLast? with _ | x
          · rw [List.getLast?_eq_none_iff] at hv'
            exact absurd hv' hv
          · simp [List.getLast?_append, hv']
      · rw [List.getLast?_cons_cons] at h
        cases t with
        | lit w =>
            simp only [mergeAux]
            exact ih (acc ++ w) v h hv
        | star =>
            obtain ⟨ws, hw1, hw2⟩ := ih [] v h hv
            refine ⟨ws, ?_, hw2⟩
            simp only [mergeAux]
            rcases hM : mergeAux [] (t2 :: rest') with _ | ⟨m1, M⟩
            · rw [hM] at hw1; simp at hw1
            · rw [hM] at hw1
              rw [List.getLast?_append, List.getLast?_cons_cons, hw1]
              rfl

/-- C6 counterexample: `' example.com. '` (whitespace outside the trailing
dot) tokenizes into four labels — its trailing dot survives normalization and
yields an extra empty label — while `'example.com'` tokenizes into three, so
the two inputs do not tokenize identically as the claim states. -/
theorem normalize_order_cex :
    (tokenizeDomain " example.com. ".toList).length = 4 ∧
    (tokenizeDomain "example.com".toList).length = 3 := by
  decide

/-- C6 (amended): normalization strips leading/trailing literal dots first
and then surrounding whitespace, before appending the terminating root
label; consequently surrounding whitespace alone is ignored (`' example.com '`
tokenizes identically to `'example.com'`), but a dot inside the whitespace
survives, so `' example.com. '` does not tokenize like `'example.com'`. -/
theorem normalize_dots_then_ws :
    (∀ s : List Char, normalizeDomain s =
        stripChars isSpace (stripChars isDot s) ++ ['.']) ∧
    (∀ s : List Char, stripChars isDot s = s →
        tokenizeDomain (' ' :: (s ++ [' '])) = tokenizeDomain s) := by
  constructor
  · intro s
    rfl
  · intro s h
    unfold tokenizeDomain normalizeDomain
    rw [stripDots_space_wrap, stripChars_cons_space, stripChars_append_space, h]

/-- Witness for C6's amended theorem at `'example.com'`. -/
theorem normalize_dots_then_ws_w :
    tokenizeDomain (' ' :: ("example.com".toList ++ [' '])) =
      tokenizeDomain "example.com".toList :=
  normalize_dots_then_ws.2 "example.com".toList (by decide)

/-- C10: every raw domain string tokenizes to a label sequence ending in the
empty root label, so after merging, the last step of every pattern is a
byte-comparison run — never a wildcard skip — and its final byte is the
root's zero length byte (a non-character byte of value 0); the last-step
cursor-advance omission therefore only ever applies to comparison runs. -/
theorem last_step_is_run (s : List Char) :
    ∃ bs, (domainSteps s).getLast? = some (Step.run bs) ∧
      bs.getLast? = some (false, 0) := by
  have h := (splitDots_append_dot (stripChars isSpace (stripChars isDot s))).1
  have htok : (tokenizeDomain s).getLast? = some (Tok.lit [(false, 0)]) := by
    unfold tokenizeDomain normalizeDomain
    rw [List.getLast?_map, h]
    simp [partToTok]
  obtain ⟨ws, h1, h2⟩ := mergeAux_getLast (tokenizeDomain s) [] [(false, 0)] htok
    (by simp)
  exact ⟨ws, h1, by simpa using h2⟩

/-- Witness for C2 at concrete inputs: a `?` character byte under
case-insensitivity masks to `0xff`, and the two-byte run `\x01a` with
case-sensitivity has an all-zero mask. -/
theorem mask_policy_spec_w :
    maskByte true (true, 63) = 255 ∧
    List.map (maskByte false) [((false : Bool), (1 : Nat)), (true, 97)] =
      List.replicate [((false : Bool), (1 : Nat)), (true, 97)].length 0 :=
  ⟨(mask_policy_spec.1 true (true, 63)).1 rfl rfl,
   (mask_policy_spec.2 [(false, 1), (true, 97)] 5 true (by decide)).1⟩

end BpfDns
